import Mathlib

/-!
Verification of the humblegen IDL compiler core: the schema type model, the
embed-resolution fixed-point pass (`src/humblegen/src/parser/embeds.rs`) and
the Elm backend generator (`src/humblegen/src/backend/elm.rs`).

Rust panics (`panic!`, `todo!`, failed `assert_eq!`) are modelled as `Except`
errors; in-place mutation of the `Spec` is modelled by explicit state passing.
-/

set_option autoImplicit false

namespace Humblegen

/-! ## Data model (`ast` module)

The `ast` module itself is not part of the sources under verification, so the
shapes below follow the specification's data-model section; every field that
the verified code reads is present.
-/

/-- The `AtomType`: the built-in primitive types. -/
inductive AtomType
  | empty
  | str
  | i32
  | u32
  | u8
  | f64
  | bool
  | dateTime
  | date
  | uuid
  | bytes
deriving DecidableEq, Repr

/-- The `TypeIdent`: the closed recursive type grammar.  `TupleDef` is its list of
element types (arity handling is positional). -/
inductive TypeIdent
  | builtIn (atom : AtomType)
  | list (inner : TypeIdent)
  | option (inner : TypeIdent)
  | result (ok err : TypeIdent)
  | map (key value : TypeIdent)
  | tuple (elements : List TypeIdent)
  | userDefined (ident : String)
deriving Repr

/-- Modelled from the spec: `FieldDefPair` from the `ast` module (not under
`src/`): a name together with a type; `is_embed` is the marker for the hacky
embed representation ("a field with no independent type, whose name instead
names another struct whose fields should be spliced in at that position"). -/
structure FieldDefPair where
  name : String
  type_ident : TypeIdent
  is_embed : Bool
deriving Repr

/-- The `FieldNode`: optional doc string plus a `FieldDefPair`. -/
structure FieldNode where
  doc_comment : Option String
  pair : FieldDefPair
deriving Repr

/-- The `StructDef`: name, doc string, ordered field list (`StructFields`). -/
structure StructDef where
  name : String
  doc_comment : Option String
  fields : List FieldNode
deriving Repr

/-- The `VariantType`: the four enum-variant shapes. -/
inductive VariantType
  | simple
  | tuple (components : List TypeIdent)
  | struct (fields : List FieldNode)
  | newtype (inner : TypeIdent)
deriving Repr

/-- The `VariantDef`: one enum alternative. -/
structure VariantDef where
  name : String
  doc_comment : Option String
  variant_type : VariantType
deriving Repr

/-- The `EnumDef`: name, doc string, ordered variants. -/
structure EnumDef where
  name : String
  doc_comment : Option String
  variants : List VariantDef
deriving Repr

/-- The `SpecItem`: one top-level declaration.  Service internals are an external
collaborator's concern; the core only distinguishes the item kind. -/
inductive SpecItem
  | structDef (d : StructDef)
  | enumDef (d : EnumDef)
  | serviceDef (name : String)
deriving Repr

/-- The `Spec`: ordered sequence of top-level items. -/
abbrev Spec := List SpecItem

/-! ## Embed resolver (`parser/embeds.rs`) -/

/-- The `MAX_EMBED_DEPTH` from `embeds.rs`. -/
def MAX_EMBED_DEPTH : Nat := 10

/-- The two panics of `embeds.rs`: unknown type referenced by an embed, and
transgression of the `MAX_EMBED_DEPTH` limit. -/
inductive EmbedError
  | unknownType (name : String)
  | maxDepth (limit : Nat)
deriving DecidableEq, Repr

/-- The struct-name/field-list pairs of a spec, in item order (the iterator
feeding `HashMap::from_iter` in `spec_resolve_embeds_one_level`). -/
def structsFieldNodes (spec : Spec) : List (String × List FieldNode) :=
  spec.filterMap fun item =>
    match item with
    | .structDef d => some (d.name, d.fields)
    | _ => none

/-- The lookup `all_structs_field_nodes.get`: `HashMap::from_iter` keeps the last binding
for a repeated key, so lookup returns the latest struct with that name. -/
def lookupFields (spec : Spec) (n : String) : Option (List FieldNode) :=
  ((structsFieldNodes spec).reverse.find? fun p => p.1 = n).map (·.2)

/-- The per-struct body of the collect phase: map every field node, replacing
an embed marker by the snapshot fields of the struct it names (panic if the
name is unknown) and copying any other field through, then flatten.  The
boolean is the contribution to the pass's `changed` flag. -/
def expandFields (lookup : String → Option (List FieldNode)) :
    List FieldNode → Except EmbedError (List FieldNode × Bool)
  | [] => .ok ([], false)
  | f :: fs =>
    if f.pair.is_embed then
      match lookup f.pair.name with
      | none => .error (.unknownType f.pair.name)
      | some embedded =>
        match expandFields lookup fs with
        | .error e => .error e
        | .ok (rest, _) => .ok (embedded ++ rest, true)
    else
      match expandFields lookup fs with
      | .error e => .error e
      | .ok (rest, c) => .ok (f :: rest, c)

/-- The operation `replacements.entry(k).or_default().extend(v)`: append `v` to the entry of
`k`, creating the entry if absent. -/
def insertExtend (k : String) (v : List FieldNode) :
    List (String × List FieldNode) → List (String × List FieldNode)
  | [] => [(k, v)]
  | (k', v') :: rest =>
    if k' = k then (k', v' ++ v) :: rest else (k', v') :: insertExtend k v rest

/-- The collect phase of `spec_resolve_embeds_one_level`: walk the items in
order, queue every struct's expanded field list in the `replacements` map and
accumulate the `changed` flag. -/
def collectReplacements (lookup : String → Option (List FieldNode)) :
    Spec → List (String × List FieldNode) → Bool →
    Except EmbedError (List (String × List FieldNode) × Bool)
  | [], reps, changed => .ok (reps, changed)
  | .structDef d :: rest, reps, changed =>
    match expandFields lookup d.fields with
    | .error e => .error e
    | .ok (newFields, c) =>
      collectReplacements lookup rest (insertExtend d.name newFields reps) (changed || c)
  | _ :: rest, reps, changed => collectReplacements lookup rest reps changed

/-- The operation `replacements.remove_entry(k)`: the queued value for `k` (if any) together
with the map with that entry removed. -/
def removeEntry (k : String) :
    List (String × List FieldNode) →
    Option (List FieldNode) × List (String × List FieldNode)
  | [] => (none, [])
  | (k', v') :: rest =>
    if k' = k then (some v', rest)
    else
      let (r, rest') := removeEntry k rest
      (r, (k', v') :: rest')

/-- The commit phase of `spec_resolve_embeds_one_level`: walk the items again
and overwrite each struct's fields with its queued replacement, if one is
still present. -/
def commitReplacements :
    List (String × List FieldNode) → Spec → Spec
  | _, [] => []
  | reps, .structDef d :: rest =>
    match removeEntry d.name reps with
    | (some newFields, reps') =>
      .structDef { d with fields := newFields } :: commitReplacements reps' rest
    | (none, reps') => .structDef d :: commitReplacements reps' rest
  | reps, item :: rest => item :: commitReplacements reps rest

/-- The `spec_resolve_embeds_one_level`: snapshot lookup, collect, then commit;
returns the updated spec and the `changed` flag. -/
def spec_resolve_embeds_one_level (spec : Spec) : Except EmbedError (Spec × Bool) :=
  match collectReplacements (lookupFields spec) spec [] false with
  | .error e => .error e
  | .ok (reps, changed) => .ok (commitReplacements reps spec, changed)

/-- The loop of `resolve_embeds`: `for _ in (0..=MAX_EMBED_DEPTH).take_while(changed)`,
then panic if the flag is still set.  `fuel` counts the remaining iterations. -/
def resolveEmbedsGo : Nat → Spec → Except EmbedError Spec
  | 0, _ => .error (.maxDepth MAX_EMBED_DEPTH)
  | fuel + 1, spec =>
    match spec_resolve_embeds_one_level spec with
    | .error e => .error e
    | .ok (spec', changed) =>
      if changed then resolveEmbedsGo fuel spec' else .ok spec'

/-- The `resolve_embeds`: run up to `MAX_EMBED_DEPTH + 1` passes (`0..=10`), abort
with the depth panic if the last pass still substituted. -/
def resolve_embeds (spec : Spec) : Except EmbedError Spec :=
  resolveEmbedsGo (MAX_EMBED_DEPTH + 1) spec

/-- A struct whose field list still contains an embed marker. -/
def StructDef.hasEmbed (d : StructDef) : Bool :=
  d.fields.any fun f => f.pair.is_embed

/-- No struct of the spec contains an embed marker. -/
def noEmbeds (spec : Spec) : Bool :=
  spec.all fun item =>
    match item with
    | .structDef d => !d.hasEmbed
    | _ => true

/-- The names of the struct items, in order. -/
def structNames (spec : Spec) : List String :=
  (structsFieldNodes spec).map (·.1)

/-- One embed marker that actually gets resolved against a missing name:
some struct's field list contains an embed whose name no struct bears. -/
def hasUnknownEmbed (spec : Spec) : Bool :=
  spec.any fun item =>
    match item with
    | .structDef d =>
      d.fields.any fun f => f.pair.is_embed && (lookupFields spec f.pair.name).isNone
    | _ => false

/-! ### The direct snapshot semantics of one pass

This second definition follows the specification's words for §4.1 step 2-3
(every struct's new field list is computed independently from the snapshot
taken at the start of the pass); the refinement theorem for C3 compares the
two-phase implementation against it. -/

/-- Per-struct candidate pairs `(name, expanded fields)` in item order,
together with the pass's `changed` flag. -/
def collectCands (lookup : String → Option (List FieldNode)) :
    Spec → Except EmbedError (List (String × List FieldNode) × Bool)
  | [] => .ok ([], false)
  | .structDef d :: rest =>
    match expandFields lookup d.fields with
    | .error e => .error e
    | .ok (nf, c) =>
      match collectCands lookup rest with
      | .error e => .error e
      | .ok (cs, c') => .ok ((d.name, nf) :: cs, c || c')
  | _ :: rest => collectCands lookup rest

/-- Direct one-pass semantics: rewrite every struct independently, using only
the given snapshot lookup. -/
def mapStructsSnapshot (lookup : String → Option (List FieldNode)) :
    Spec → Except EmbedError (Spec × Bool)
  | [] => .ok ([], false)
  | .structDef d :: rest =>
    match expandFields lookup d.fields with
    | .error e => .error e
    | .ok (nf, c) =>
      match mapStructsSnapshot lookup rest with
      | .error e => .error e
      | .ok (rest', c') => .ok (.structDef { d with fields := nf } :: rest', c || c')
  | item :: rest =>
    match mapStructsSnapshot lookup rest with
    | .error e => .error e
    | .ok (rest', c') => .ok (item :: rest', c')

/-- The specification's description of one resolver pass: every embed marker
is substituted with the fields its target has at the start of the pass. -/
def specResolveOneLevelSpec (spec : Spec) : Except EmbedError (Spec × Bool) :=
  mapStructsSnapshot (lookupFields spec) spec

/-- Queue a list of candidate pairs into a `replacements` map, in order. -/
def foldInsert (reps : List (String × List FieldNode))
    (cs : List (String × List FieldNode)) : List (String × List FieldNode) :=
  cs.foldl (fun r p => insertExtend p.1 p.2 r) reps

/-- Every field node stored in a `replacements` map is embed-free. -/
def repsClean (reps : List (String × List FieldNode)) : Prop :=
  ∀ p ∈ reps, ∀ f ∈ p.2, f.pair.is_embed = false

/-! ### Concrete specs used by the example conjuncts -/

/-- A non-embed field node `name: ty`. -/
def plainField (name : String) (ty : TypeIdent) : FieldNode :=
  ⟨none, ⟨name, ty, false⟩⟩

/-- An embed marker `.. name`. -/
def embedField (name : String) : FieldNode :=
  ⟨none, ⟨name, .builtIn .empty, true⟩⟩

/-- The example struct `Monster` with an `id` field and an embed of `MonsterData`. -/
def monsterStruct : StructDef :=
  ⟨"Monster", none, [plainField "id" (.builtIn .i32), embedField "MonsterData"]⟩

/-- The example struct `MonsterData` with fields `name` and `hp`. -/
def monsterDataStruct : StructDef :=
  ⟨"MonsterData", none, [plainField "name" (.builtIn .str), plainField "hp" (.builtIn .i32)]⟩

/-- The spec of the order-preservation example. -/
def monsterSpec : Spec :=
  [.structDef monsterStruct, .structDef monsterDataStruct]

/-- The fully resolved Monster spec. -/
def monsterSpecResolved : Spec :=
  [.structDef ⟨"Monster", none,
      [plainField "id" (.builtIn .i32), plainField "name" (.builtIn .str),
       plainField "hp" (.builtIn .i32)]⟩,
   .structDef monsterDataStruct]

/-- Two structs mutually embedding each other. -/
def mutualEmbedSpec : Spec :=
  [.structDef ⟨"A", none, [embedField "B"]⟩,
   .structDef ⟨"B", none, [embedField "A"]⟩]

/-- A struct embedding a name that no struct of the spec bears. -/
def unknownEmbedSpec : Spec :=
  [.structDef ⟨"Monster", none, [embedField "Missing"]⟩]

/-- Two embed-free structs sharing the name `X`, with different fields. -/
def dupNameSpec : Spec :=
  [.structDef ⟨"X", none, [plainField "a" (.builtIn .i32)]⟩,
   .structDef ⟨"X", none, [plainField "b" (.builtIn .bool)]⟩]

/-- What `resolve_embeds` actually returns on `dupNameSpec`: both structs
queue their candidate list under the key `X`, the two lists are concatenated
by `entry().or_default().extend(..)`, and the commit phase hands the combined
list to the first struct (`remove_entry` then leaves nothing for the
second). -/
def dupNameSpecResult : Spec :=
  [.structDef ⟨"X", none,
      [plainField "a" (.builtIn .i32), plainField "b" (.builtIn .bool)]⟩,
   .structDef ⟨"X", none, [plainField "b" (.builtIn .bool)]⟩]

/-- The field count of the first struct of a spec (a separating observation
for specs that differ in their first struct). -/
def firstStructFieldCount (spec : Spec) : Nat :=
  match spec with
  | .structDef d :: _ => d.fields.length
  | _ => 0

/-! ## Elm backend (`backend/elm.rs`) -/

/-- The elm backend name constant. -/
def BACKEND_NAME : String := "elm"

/-- The generation-time panics of `elm.rs`: `todo!()` for the unimplemented
codecs and the failed `assert_eq!` contract checks. -/
inductive GenError
  | notImplemented
  | assertionFailed (msg : String)
deriving DecidableEq, Repr

/-- The ASCII upper/lower letter pairs. -/
def letterPairs : List (Char × Char) :=
  [('A', 'a'), ('B', 'b'), ('C', 'c'), ('D', 'd'), ('E', 'e'), ('F', 'f'),
   ('G', 'g'), ('H', 'h'), ('I', 'i'), ('J', 'j'), ('K', 'k'), ('L', 'l'),
   ('M', 'm'), ('N', 'n'), ('O', 'o'), ('P', 'p'), ('Q', 'q'), ('R', 'r'),
   ('S', 's'), ('T', 't'), ('U', 'u'), ('V', 'v'), ('W', 'w'), ('X', 'x'),
   ('Y', 'y'), ('Z', 'z')]

/-- ASCII lower-casing of a single character. -/
def lowerChar (c : Char) : Char :=
  ((letterPairs.find? fun p => p.1 = c).map Prod.snd).getD c

/-- ASCII upper-casing of a single character. -/
def upperChar (c : Char) : Char :=
  ((letterPairs.find? fun p => p.2 = c).map Prod.fst).getD c

/-- A word-separator character for the case transform. -/
def isSeparatorChar (c : Char) : Bool :=
  c = '_' || c = '-' || c = ' ' || c = '.'

/-- Character stream of the camel-case transform: drop separators, capitalise
the character following a separator, keep everything else. -/
def camelChars : Bool → List Char → List Char
  | _, [] => []
  | up, c :: cs =>
    if isSeparatorChar c then camelChars true cs
    else (if up then upperChar c else c) :: camelChars false cs

/-- Modelled from the spec: the "fixed case-style transform" used for
decoder/encoder identifiers (the external `inflector` crate's
`to_camel_case`): separators are dropped, the letter after a separator is
capitalised, and the very first letter is lower-cased. -/
def to_camel_case (s : String) : String :=
  match camelChars false s.data with
  | [] => ""
  | c :: cs => ⟨lowerChar c :: cs⟩

/-- The test `s.contains(' ')`: whether the string contains a space character. -/
def containsSpace (s : String) : Bool :=
  s.data.any fun c => c = ' '

/-- The `to_atom`: wrap `s` in parentheses if it contains a space. -/
def to_atom (s : String) : String :=
  if containsSpace s then "(" ++ s ++ ")" else s

/-- The `itertools` join: concatenate with a separator. -/
def joinSep (sep : String) : List String → String
  | [] => ""
  | [s] => s
  | s :: rest => s ++ sep ++ joinSep sep rest

/-- The `field_name`: camel-cased field identifier. -/
def field_name (ident : String) : String :=
  to_camel_case ident

/-- The `generate_atom`: elm type name per atom. -/
def generate_atom : AtomType → String
  | .empty => "()"
  | .str => "String"
  | .i32 => "Int"
  | .u32 => "Int"
  | .u8 => "Int"
  | .f64 => "Float"
  | .bool => "Bool"
  | .dateTime => "Time.Posix"
  | .date => "Date.Date"
  | .uuid => "String"
  | .bytes => "String"

mutual

/-- The `generate_type_ident`: elm rendering of a type identifier (the `tuple`
arm is `generate_tuple_def`, inlined here so that the recursion stays
structural). -/
def generate_type_ident : TypeIdent → String
  | .builtIn atom => generate_atom atom
  | .list inner => "List " ++ to_atom (generate_type_ident inner)
  | .option inner => "Maybe " ++ to_atom (generate_type_ident inner)
  | .result ok err =>
    "Result " ++ to_atom (generate_type_ident err) ++ " " ++ to_atom (generate_type_ident ok)
  | .map key value =>
    "Dict " ++ to_atom (generate_type_ident key) ++ " " ++ to_atom (generate_type_ident value)
  | .tuple tdef => "(" ++ joinSep ", " (generateTypeIdentList tdef) ++ ")"
  | .userDefined ident => ident

/-- The element-wise renderings of a tuple's component types. -/
def generateTypeIdentList : List TypeIdent → List String
  | [] => []
  | t :: ts => generate_type_ident t :: generateTypeIdentList ts

end

/-- The `generate_tuple_def`: elm rendering of a tuple type. -/
def generate_tuple_def (tdef : List TypeIdent) : String :=
  "(" ++ joinSep ", " (generateTypeIdentList tdef) ++ ")"

/-- The `decoder_name`: `to_camel_case("{ident}Decoder")`. -/
def decoder_name (ident : String) : String :=
  to_camel_case (ident ++ "Decoder")

/-- The `encoder_name`: `to_camel_case("encode{ident}")`. -/
def encoder_name (ident : String) : String :=
  to_camel_case ("encode" ++ ident)

/-- The `enum_string_decoder_name`: `to_camel_case("parseEnum{ident}FromString")`. -/
def enum_string_decoder_name (ident : String) : String :=
  to_camel_case ("parseEnum" ++ ident ++ "FromString")

/-- The `generate_atom_decoder`: primitive decoder per atom; `Uuid` and `Bytes`
are `todo!()`. -/
def generate_atom_decoder : AtomType → Except GenError String
  | .empty => .ok "(D.succeed ())"
  | .str => .ok "D.string"
  | .i32 => .ok "D.int"
  | .u32 => .ok "D.int"
  | .u8 => .ok "D.int"
  | .f64 => .ok "D.float"
  | .bool => .ok "D.bool"
  | .dateTime => .ok "Iso8601.decoder"
  | .date => .ok "dateDecoder"
  | .uuid => .error .notImplemented
  | .bytes => .error .notImplemented

/-- The `generate_atom_encoder`: primitive encoder per atom; `Uuid` and `Bytes`
are `todo!()`. -/
def generate_atom_encoder : AtomType → Except GenError String
  | .empty => .ok "(_ -> E.null)"
  | .str => .ok "E.string"
  | .i32 => .ok "E.int"
  | .u32 => .ok "E.int"
  | .u8 => .ok "E.int"
  | .f64 => .ok "E.float"
  | .bool => .ok "E.bool"
  | .dateTime => .ok "Iso8601.encode"
  | .date => .ok "encDate"
  | .uuid => .error .notImplemented
  | .bytes => .error .notImplemented

/-- The binder names `x0 x1 ...` used for tuple components. -/
def xParts (n : Nat) : List String :=
  (List.range n).map fun i => "x" ++ toString i

mutual

/-- The `generate_type_decoder`: structural recursion over `TypeIdent`;
`Result` is `todo!()`, a `Map` key's decoder must render to `D.string` (the
`tuple` arm is `generate_tuple_decoder`, inlined to keep the recursion
structural). -/
def generate_type_decoder : TypeIdent → Except GenError String
  | .builtIn atom => generate_atom_decoder atom
  | .list inner =>
    match generate_type_decoder inner with
    | .error e => .error e
    | .ok s => .ok ("D.list " ++ to_atom s)
  | .option inner =>
    match generate_type_decoder inner with
    | .error e => .error e
    | .ok s => .ok ("D.maybe " ++ to_atom s)
  | .result _ _ => .error .notImplemented
  | .map key value =>
    match generate_type_decoder key with
    | .error e => .error e
    | .ok ks =>
      if ks = "D.string" then
        match generate_type_decoder value with
        | .error e => .error e
        | .ok vs => .ok ("D.dict " ++ to_atom vs)
      else .error (.assertionFailed "elm only supports dict keys")
  | .tuple tdef =>
    match generate_components_by_index_pipeline tdef 0 with
    | .error e => .error e
    | .ok pipeline =>
      .ok ("D.succeed (\\" ++ joinSep " " (xParts tdef.length) ++ " -> ("
        ++ joinSep ", " (xParts tdef.length) ++ ")) " ++ joinSep " " pipeline)
  | .userDefined ident => .ok (decoder_name ident)

/-- The `generate_components_by_index_pipeline`: `|> requiredIdx i dec` steps, in
index order starting at `i`. -/
def generate_components_by_index_pipeline :
    List TypeIdent → Nat → Except GenError (List String)
  | [], _ => .ok []
  | t :: ts, i =>
    match generate_type_decoder t with
    | .error e => .error e
    | .ok d =>
      match generate_components_by_index_pipeline ts (i + 1) with
      | .error e => .error e
      | .ok rest => .ok (("|> requiredIdx " ++ toString i ++ " " ++ to_atom d) :: rest)

end

/-- The `generate_tuple_decoder`: positional decoder for a tuple. -/
def generate_tuple_decoder (tdef : List TypeIdent) : Except GenError String :=
  match generate_components_by_index_pipeline tdef 0 with
  | .error e => .error e
  | .ok pipeline =>
    .ok ("D.succeed (\\" ++ joinSep " " (xParts tdef.length) ++ " -> ("
      ++ joinSep ", " (xParts tdef.length) ++ ")) " ++ joinSep " " pipeline)

mutual

/-- The `generate_type_encoder`: mirror of the decoder; `Result` is `todo!()`, a
`Map` key's encoder must render to `E.string`. -/
def generate_type_encoder : TypeIdent → Except GenError String
  | .builtIn atom => generate_atom_encoder atom
  | .list inner =>
    match generate_type_encoder inner with
    | .error e => .error e
    | .ok s => .ok ("E.list " ++ to_atom s)
  | .option inner =>
    match generate_type_encoder inner with
    | .error e => .error e
    | .ok s => .ok ("encMaybe " ++ to_atom s)
  | .result _ _ => .error .notImplemented
  | .map key value =>
    match generate_type_encoder key with
    | .error e => .error e
    | .ok ks =>
      if ks = "E.string" then
        match generate_type_encoder value with
        | .error e => .error e
        | .ok vs => .ok ("E.dict identity " ++ to_atom vs)
      else .error (.assertionFailed "can only encode string keys in maps")
  | .tuple tdef =>
    match encodeComponentsFrom tdef 0 with
    | .error e => .error e
    | .ok encs =>
      .ok ("\\(" ++ joinSep ", " (xParts tdef.length) ++ ") -> E.list identity [ "
        ++ joinSep ", " encs ++ " ]")
  | .userDefined ident => .ok (encoder_name ident)

/-- The `{enc} x{idx}` component encoders of a tuple, in index order. -/
def encodeComponentsFrom : List TypeIdent → Nat → Except GenError (List String)
  | [], _ => .ok []
  | t :: ts, i =>
    match generate_type_encoder t with
    | .error e => .error e
    | .ok s =>
      match encodeComponentsFrom ts (i + 1) with
      | .error e => .error e
      | .ok rest => .ok ((s ++ " x" ++ toString i) :: rest)

end

/-- The `generate_tuple_encoder`: positional encoder for a tuple. -/
def generate_tuple_encoder (tdef : List TypeIdent) : Except GenError String :=
  match encodeComponentsFrom tdef 0 with
  | .error e => .error e
  | .ok encs =>
    .ok ("\\(" ++ joinSep ", " (xParts tdef.length) ++ ") -> E.list identity [ "
      ++ joinSep ", " encs ++ " ]")

mutual

/-- Whether a type identifier contains one of the shapes whose codecs are
`todo!()` in `elm.rs`: a `Result`, or a `Uuid`/`Bytes` atom. -/
def containsUnsupported : TypeIdent → Bool
  | .builtIn a => a = .uuid || a = .bytes
  | .list inner => containsUnsupported inner
  | .option inner => containsUnsupported inner
  | .result _ _ => true
  | .map key value => containsUnsupported key || containsUnsupported value
  | .tuple tdef => containsUnsupportedList tdef
  | .userDefined _ => false

/-- The `containsUnsupported` over a tuple's element list. -/
def containsUnsupportedList : List TypeIdent → Bool
  | [] => false
  | t :: ts => containsUnsupported t || containsUnsupportedList ts

end

/-- A size-based induction principle for the nested `TypeIdent` grammar,
giving the tuple case its hypothesis for every element of the list. -/
def TypeIdent.inductionOn {P : TypeIdent → Prop}
    (hb : ∀ a, P (.builtIn a))
    (hl : ∀ t, P t → P (.list t))
    (ho : ∀ t, P t → P (.option t))
    (hr : ∀ a b, P a → P b → P (.result a b))
    (hm : ∀ k v, P k → P v → P (.map k v))
    (ht : ∀ ts, (∀ t ∈ ts, P t) → P (.tuple ts))
    (hu : ∀ s, P (.userDefined s)) : ∀ t, P t
  | .builtIn a => hb a
  | .list t => hl t (TypeIdent.inductionOn hb hl ho hr hm ht hu t)
  | .option t => ho t (TypeIdent.inductionOn hb hl ho hr hm ht hu t)
  | .result a b =>
    hr a b (TypeIdent.inductionOn hb hl ho hr hm ht hu a)
      (TypeIdent.inductionOn hb hl ho hr hm ht hu b)
  | .map k v =>
    hm k v (TypeIdent.inductionOn hb hl ho hr hm ht hu k)
      (TypeIdent.inductionOn hb hl ho hr hm ht hu v)
  | .tuple ts =>
    ht ts fun t ht' =>
      have : sizeOf t < 1 + sizeOf ts := by
        have h := List.sizeOf_lt_of_mem ht'
        omega
      TypeIdent.inductionOn hb hl ho hr hm ht hu t
  | .userDefined s => hu s
termination_by t => sizeOf t

/-- Whether a variant has the `Simple` shape. -/
def VariantType.isSimple : VariantType → Bool
  | .simple => true
  | _ => false

/-- Modelled from the spec: `EnumDef::simple_variants` from the `ast` module
(not under `src/`): the variants with `Simple` shape, in declaration order. -/
def EnumDef.simple_variants (edef : EnumDef) : List VariantDef :=
  edef.variants.filter fun v => v.variant_type.isSimple

/-- The `generate_enum_helpers`: the per-enum string-lookup helper. -/
def generate_enum_helpers (edef : EnumDef) : String :=
  enum_string_decoder_name edef.name ++ " : String -> Maybe " ++ edef.name ++ "\n"
    ++ enum_string_decoder_name edef.name ++ " s = case s of \n"
    ++ joinSep "\n\n"
        (edef.simple_variants.map fun v => "  \"" ++ v.name ++ "\" -> Just " ++ v.name)
    ++ "\n" ++ "  " ++ "_ -> Nothing\n"

/-- The `generate_rest_api_client_helpers`: one helper per enum item, joined with
the empty separator. -/
def generate_rest_api_client_helpers (spec : Spec) : String :=
  joinSep ""
    (spec.filterMap fun item =>
      match item with
      | .enumDef edef => some (generate_enum_helpers edef)
      | _ => none)

/-- The enum items of a spec, in order. -/
def enumItems (spec : Spec) : List EnumDef :=
  spec.filterMap fun item =>
    match item with
    | .enumDef edef => some edef
    | _ => none

/-! ### Output-directory validation and `generate`

The filesystem is shallowly embedded as the state of the single output
directory: whether the path is an existing directory, and its entries.  File
creation appends the file's name to the entries; the emitted text itself is
beyond this abstraction. -/

/-- The `LibError` variants exercised by the elm backend. -/
inductive LibError
  | ioError
  | outputMustBeFolder (backend : String)
  | outputFolderNotEmpty (backend : String)
  | unsupportedArtifact (backend : String)
deriving DecidableEq, Repr

/-- The state of the output directory. -/
structure FileSys where
  isDir : Bool
  entries : List String
deriving DecidableEq, Repr

/-- The `validate_output_dir`: the path must be a directory and must be empty. -/
def validate_output_dir (fs : FileSys) : Except LibError Unit :=
  if !fs.isDir then .error (.outputMustBeFolder BACKEND_NAME)
  else if !fs.entries.isEmpty then .error (.outputFolderNotEmpty BACKEND_NAME)
  else .ok ()

/-- The method `Generator::generate_user_defined_types`: opens `Data.elm` in the output
directory and writes the type declarations into it. -/
def generate_user_defined_types (_spec : Spec) (fs : FileSys) :
    Except LibError Unit × FileSys :=
  (.ok (), { fs with entries := fs.entries ++ ["Data.elm"] })

/-- The method `CodeGenerator::generate` for the elm backend: validate the output
directory, then write the user-defined types; on a validation error the
filesystem is left untouched. -/
def generate (spec : Spec) (fs : FileSys) : Except LibError Unit × FileSys :=
  match validate_output_dir fs with
  | .error e => (.error e, fs)
  | .ok _ => generate_user_defined_types spec fs

/-! ### Concrete artifacts for the backend claims -/

/-- An enum with two Simple variants and one Tuple variant. -/
def colorEnum : EnumDef :=
  ⟨"Color", none,
    [⟨"Red", none, .simple⟩, ⟨"Blue", none, .simple⟩,
     ⟨"Rgb", none, .tuple [.builtIn .u8, .builtIn .u8, .builtIn .u8]⟩]⟩

/-- An enum with no Simple variant at all. -/
def payloadOnlyEnum : EnumDef :=
  ⟨"Payload", none, [⟨"Raw", none, .newtype (.builtIn .str)⟩]⟩

end Humblegen
namespace Humblegen

theorem expandFields_ok_flatten (lookup : String → Option (List FieldNode)) :
    ∀ fs r c, expandFields lookup fs = .ok (r, c) →
      r = (fs.map fun f =>
            if f.pair.is_embed then (lookup f.pair.name).getD [] else [f]).flatten := by
  intro fs
  induction fs with
  | nil =>
    intro r c h
    simp only [expandFields, Except.ok.injEq, Prod.mk.injEq] at h
    simp [← h.1]
  | cons f fs ih =>
    intro r c h
    simp only [expandFields] at h
    by_cases he : f.pair.is_embed
    · rw [if_pos he] at h
      cases hl : lookup f.pair.name with
      | none => rw [hl] at h; exact absurd h (by simp)
      | some embedded =>
        rw [hl] at h
        cases hr : expandFields lookup fs with
        | error e => rw [hr] at h; exact absurd h (by simp)
        | ok p =>
          obtain ⟨rest, c'⟩ := p
          rw [hr] at h
          simp only [Except.ok.injEq, Prod.mk.injEq] at h
          simp [← h.1, he, hl, ih rest c' hr]
    · rw [if_neg he] at h
      cases hr : expandFields lookup fs with
      | error e => rw [hr] at h; exact absurd h (by simp)
      | ok p =>
        obtain ⟨rest, c'⟩ := p
        rw [hr] at h
        simp only [Except.ok.injEq, Prod.mk.injEq] at h
        simp [← h.1, he, ih rest c' hr]

end Humblegen

namespace Humblegen

theorem expandFields_ok_false (lookup : String → Option (List FieldNode)) :
    ∀ fs r, expandFields lookup fs = .ok (r, false) →
      r = fs ∧ ∀ f ∈ fs, f.pair.is_embed = false := by
  intro fs
  induction fs with
  | nil =>
    intro r h
    simp only [expandFields, Except.ok.injEq, Prod.mk.injEq] at h
    simp [← h.1]
  | cons f fs ih =>
    intro r h
    simp only [expandFields] at h
    by_cases he : f.pair.is_embed
    · rw [if_pos he] at h
      cases hl : lookup f.pair.name with
      | none => rw [hl] at h; exact absurd h (by simp)
      | some embedded =>
        rw [hl] at h
        cases hr : expandFields lookup fs with
        | error e => rw [hr] at h; exact absurd h (by simp)
        | ok p =>
          rw [hr] at h
          exact absurd h (by simp)
    · rw [if_neg he] at h
      cases hr : expandFields lookup fs with
      | error e => rw [hr] at h; exact absurd h (by simp)
      | ok p =>
        obtain ⟨rest, c'⟩ := p
        rw [hr] at h
        simp only [Except.ok.injEq, Prod.mk.injEq] at h
        obtain ⟨hrr, hcc⟩ := h
        subst hcc
        obtain ⟨h1, h2⟩ := ih rest hr
        constructor
        · rw [← hrr, h1]
        · intro g hg
          rcases List.mem_cons.mp hg with hg | hg
          · subst hg; simpa using he
          · exact h2 g hg

theorem expandFields_of_noEmbeds (lookup : String → Option (List FieldNode)) :
    ∀ fs, (∀ f ∈ fs, f.pair.is_embed = false) →
      expandFields lookup fs = .ok (fs, false) := by
  intro fs
  induction fs with
  | nil => intro _; simp [expandFields]
  | cons f fs ih =>
    intro h
    have hf : f.pair.is_embed = false := h f (List.mem_cons_self f fs)
    simp only [expandFields, hf, Bool.false_eq_true, if_false]
    rw [ih fun g hg => h g (List.mem_cons_of_mem f hg)]

theorem expandFields_ok_lookup_isSome (lookup : String → Option (List FieldNode)) :
    ∀ fs r c, expandFields lookup fs = .ok (r, c) →
      ∀ f ∈ fs, f.pair.is_embed = true → (lookup f.pair.name).isSome := by
  intro fs
  induction fs with
  | nil => intro r c _ f hf; exact absurd hf (by simp)
  | cons f fs ih =>
    intro r c h g hg hge
    simp only [expandFields] at h
    by_cases he : f.pair.is_embed
    · rw [if_pos he] at h
      cases hl : lookup f.pair.name with
      | none => rw [hl] at h; exact absurd h (by simp)
      | some embedded =>
        rw [hl] at h
        cases hr : expandFields lookup fs with
        | error e => rw [hr] at h; exact absurd h (by simp)
        | ok p =>
          obtain ⟨rest, c'⟩ := p
          rcases List.mem_cons.mp hg with hgf | hgf
          · subst hgf; simp [hl]
          · exact ih rest c' hr g hgf hge
    · rw [if_neg he] at h
      cases hr : expandFields lookup fs with
      | error e => rw [hr] at h; exact absurd h (by simp)
      | ok p =>
        obtain ⟨rest, c'⟩ := p
        rcases List.mem_cons.mp hg with hgf | hgf
        · subst hgf; exact absurd hge (by simpa using he)
        · exact ih rest c' hr g hgf hge

theorem expandFields_error_unknown (lookup : String → Option (List FieldNode)) :
    ∀ fs e, expandFields lookup fs = .error e →
      ∃ n, e = .unknownType n ∧ lookup n = none := by
  intro fs
  induction fs with
  | nil => intro e h; exact absurd h (by simp [expandFields])
  | cons f fs ih =>
    intro e h
    simp only [expandFields] at h
    by_cases he : f.pair.is_embed
    · rw [if_pos he] at h
      cases hl : lookup f.pair.name with
      | none =>
        rw [hl] at h
        simp only [Except.error.injEq] at h
        exact ⟨f.pair.name, h.symm, hl⟩
      | some embedded =>
        rw [hl] at h
        cases hr : expandFields lookup fs with
        | error e' =>
          rw [hr] at h
          simp only [Except.error.injEq] at h
          subst h
          exact ih e' hr
        | ok p => rw [hr] at h; exact absurd h (by simp)
    · rw [if_neg he] at h
      cases hr : expandFields lookup fs with
      | error e' =>
        rw [hr] at h
        simp only [Except.error.injEq] at h
        subst h
        exact ih e' hr
      | ok p => rw [hr] at h; exact absurd h (by simp)

theorem expandFields_error_of_bad (lookup : String → Option (List FieldNode)) (fs : List FieldNode)
    (h : ∃ f ∈ fs, f.pair.is_embed = true ∧ lookup f.pair.name = none) :
    ∃ n, expandFields lookup fs = .error (.unknownType n) ∧ lookup n = none := by
  obtain ⟨f, hf, hfe, hfl⟩ := h
  cases hr : expandFields lookup fs with
  | ok p =>
    have := expandFields_ok_lookup_isSome lookup fs p.1 p.2 (by rw [hr]) f hf hfe
    rw [hfl] at this
    exact absurd this (by simp)
  | error e =>
    obtain ⟨n, hn, hln⟩ := expandFields_error_unknown lookup fs e hr
    exact ⟨n, by rw [hn], hln⟩

end Humblegen

namespace Humblegen

theorem collect_changed_mono (lookup : String → Option (List FieldNode)) :
    ∀ items reps₀ r ch, collectReplacements lookup items reps₀ true = .ok (r, ch) → ch = true := by
  intro items
  induction items with
  | nil =>
    intro reps₀ r ch h
    simp only [collectReplacements, Except.ok.injEq, Prod.mk.injEq] at h
    exact h.2.symm
  | cons item rest ih =>
    intro reps₀ r ch h
    cases item with
    | structDef d =>
      simp only [collectReplacements] at h
      cases he : expandFields lookup d.fields with
      | error e => rw [he] at h; exact absurd h (by simp)
      | ok p =>
        obtain ⟨nf, c⟩ := p
        rw [he] at h
        exact ih _ r ch (by simpa using h)
    | enumDef d => exact ih _ r ch (by simpa [collectReplacements] using h)
    | serviceDef n => exact ih _ r ch (by simpa [collectReplacements] using h)

theorem insertExtend_clean (k : String) (v : List FieldNode)
    (hv : ∀ f ∈ v, f.pair.is_embed = false) :
    ∀ reps, repsClean reps → repsClean (insertExtend k v reps) := by
  intro reps
  induction reps with
  | nil =>
    intro _ p hp f hf
    simp only [insertExtend, List.mem_singleton] at hp
    subst hp
    exact hv f hf
  | cons q rest ih =>
    intro hclean p hp f hf
    obtain ⟨k', v'⟩ := q
    simp only [insertExtend] at hp
    by_cases hk : k' = k
    · rw [if_pos hk] at hp
      rcases List.mem_cons.mp hp with hp | hp
      · subst hp
        rcases List.mem_append.mp hf with hf | hf
        · exact hclean (k', v') (List.mem_cons_self _ _) f hf
        · exact hv f hf
      · exact hclean p (List.mem_cons_of_mem _ hp) f hf
    · rw [if_neg hk] at hp
      rcases List.mem_cons.mp hp with hp | hp
      · subst hp
        exact hclean (k', v') (List.mem_cons_self _ _) f hf
      · exact ih (fun q hq g hg => hclean q (List.mem_cons_of_mem _ hq) g hg) p hp f hf

theorem collectReplacements_false_clean (lookup : String → Option (List FieldNode)) :
    ∀ items reps₀ c₀ reps, collectReplacements lookup items reps₀ c₀ = .ok (reps, false) →
      repsClean reps₀ →
      repsClean reps ∧
        ∀ d, SpecItem.structDef d ∈ items → ∀ f ∈ d.fields, f.pair.is_embed = false := by
  intro items
  induction items with
  | nil =>
    intro reps₀ c₀ reps h hc
    simp only [collectReplacements, Except.ok.injEq, Prod.mk.injEq] at h
    refine ⟨h.1 ▸ hc, ?_⟩
    intro d hd
    exact absurd hd (by simp)
  | cons item rest ih =>
    intro reps₀ c₀ reps h hc
    cases item with
    | structDef d =>
      simp only [collectReplacements] at h
      cases he : expandFields lookup d.fields with
      | error e => rw [he] at h; exact absurd h (by simp)
      | ok p =>
        obtain ⟨nf, c⟩ := p
        rw [he] at h
        have hcfalse : c = false := by
          cases c with
          | false => rfl
          | true =>
            have := collect_changed_mono lookup rest _ reps false (by simpa using h)
            exact absurd this (by simp)
        subst hcfalse
        obtain ⟨hnf, hdf⟩ := expandFields_ok_false lookup d.fields nf he
        have hnfclean : ∀ f ∈ nf, f.pair.is_embed = false := by rw [hnf]; exact hdf
        have hins : repsClean (insertExtend d.name nf reps₀) :=
          insertExtend_clean d.name nf hnfclean reps₀ hc
        obtain ⟨h1, h2⟩ := ih _ _ reps (by simpa using h) hins
        refine ⟨h1, ?_⟩
        intro d' hd' f hf
        rcases List.mem_cons.mp hd' with hd' | hd'
        · cases hd'; exact hdf f hf
        · exact h2 d' hd' f hf
    | enumDef d =>
      obtain ⟨h1, h2⟩ := ih _ _ reps (by simpa [collectReplacements] using h) hc
      refine ⟨h1, ?_⟩
      intro d' hd' f hf
      rcases List.mem_cons.mp hd' with hd' | hd'
      · exact absurd hd' (by simp)
      · exact h2 d' hd' f hf
    | serviceDef n =>
      obtain ⟨h1, h2⟩ := ih _ _ reps (by simpa [collectReplacements] using h) hc
      refine ⟨h1, ?_⟩
      intro d' hd' f hf
      rcases List.mem_cons.mp hd' with hd' | hd'
      · exact absurd hd' (by simp)
      · exact h2 d' hd' f hf

end Humblegen

namespace Humblegen

theorem removeEntry_some_mem (k : String) :
    ∀ reps v reps', removeEntry k reps = (some v, reps') →
      (k, v) ∈ reps ∨ ∃ k', (k', v) ∈ reps := by
  intro reps
  induction reps with
  | nil => intro v reps' h; exact absurd h (by simp [removeEntry])
  | cons q rest ih =>
    intro v reps' h
    obtain ⟨k', v'⟩ := q
    simp only [removeEntry] at h
    by_cases hk : k' = k
    · rw [if_pos hk] at h
      simp only [Prod.mk.injEq, Option.some.injEq] at h
      right
      exact ⟨k', by rw [h.1]; exact List.mem_cons_self _ _⟩
    · rw [if_neg hk] at h
      simp only [Prod.mk.injEq] at h
      cases hre : removeEntry k rest with
      | mk r rest'' =>
        rw [hre] at h
        cases r with
        | none => simp at h
        | some v'' =>
          simp only at h
          obtain ⟨h1, _⟩ := h
          cases h1
          rcases ih v rest'' hre with hh | ⟨k'', hh⟩
          · exact Or.inl (List.mem_cons_of_mem _ hh)
          · exact Or.inr ⟨k'', List.mem_cons_of_mem _ hh⟩

theorem removeEntry_sub (k : String) :
    ∀ reps r reps', removeEntry k reps = (r, reps') → ∀ p ∈ reps', p ∈ reps := by
  intro reps
  induction reps with
  | nil =>
    intro r reps' h
    simp only [removeEntry, Prod.mk.injEq] at h
    rw [← h.2]
    intro p hp
    exact absurd hp (by simp)
  | cons q rest ih =>
    intro r reps' h
    obtain ⟨k', v'⟩ := q
    simp only [removeEntry] at h
    by_cases hk : k' = k
    · rw [if_pos hk] at h
      simp only [Prod.mk.injEq] at h
      intro p hp
      exact List.mem_cons_of_mem _ (h.2 ▸ hp)
    · rw [if_neg hk] at h
      cases hre : removeEntry k rest with
      | mk r' rest'' =>
        rw [hre] at h
        simp only [Prod.mk.injEq] at h
        intro p hp
        rw [← h.2] at hp
        rcases List.mem_cons.mp hp with hp | hp
        · subst hp; exact List.mem_cons_self _ _
        · exact List.mem_cons_of_mem _ (ih r' rest'' hre p hp)

theorem commit_clean :
    ∀ items reps, repsClean reps →
      (∀ d, SpecItem.structDef d ∈ items → ∀ f ∈ d.fields, f.pair.is_embed = false) →
      noEmbeds (commitReplacements reps items) = true := by
  intro items
  induction items with
  | nil => intro reps _ _; simp [commitReplacements, noEmbeds]
  | cons item rest ih =>
    intro reps hreps hitems
    cases item with
    | structDef d =>
      simp only [commitReplacements]
      cases hre : removeEntry d.name reps with
      | mk r reps' =>
        have hreps' : repsClean reps' := fun p hp f hf =>
          hreps p (removeEntry_sub d.name reps r reps' hre p hp) f hf
        have hrest : ∀ d', SpecItem.structDef d' ∈ rest → ∀ f ∈ d'.fields, f.pair.is_embed = false :=
          fun d' hd' => hitems d' (List.mem_cons_of_mem _ hd')
        cases r with
        | none =>
          simp only [noEmbeds, List.all_cons]
          rw [Bool.and_eq_true]
          refine ⟨?_, ih reps' hreps' hrest⟩
          have := hitems d (List.mem_cons_self _ _)
          simp only [StructDef.hasEmbed, Bool.not_eq_true']
          rw [List.any_eq_false]
          intro f hf
          simp [this f hf]
        | some nf =>
          simp only [noEmbeds, List.all_cons]
          rw [Bool.and_eq_true]
          refine ⟨?_, ih reps' hreps' hrest⟩
          have hnf : ∀ f ∈ nf, f.pair.is_embed = false := by
            rcases removeEntry_some_mem d.name reps nf reps' hre with hh | ⟨k'', hh⟩
            · exact fun f hf => hreps _ hh f hf
            · exact fun f hf => hreps _ hh f hf
          simp only [StructDef.hasEmbed, Bool.not_eq_true']
          rw [List.any_eq_false]
          intro f hf
          simp [hnf f hf]
    | enumDef d =>
      simp only [commitReplacements, noEmbeds, List.all_cons]
      rw [Bool.and_eq_true]
      refine ⟨rfl, ?_⟩
      exact ih reps hreps fun d' hd' => hitems d' (List.mem_cons_of_mem _ hd')
    | serviceDef n =>
      simp only [commitReplacements, noEmbeds, List.all_cons]
      rw [Bool.and_eq_true]
      refine ⟨rfl, ?_⟩
      exact ih reps hreps fun d' hd' => hitems d' (List.mem_cons_of_mem _ hd')

theorem one_level_false_noEmbeds (spec : Spec) (spec' : Spec)
    (h : spec_resolve_embeds_one_level spec = .ok (spec', false)) :
    noEmbeds spec' = true := by
  unfold spec_resolve_embeds_one_level at h
  cases hc : collectReplacements (lookupFields spec) spec [] false with
  | error e => rw [hc] at h; exact absurd h (by simp)
  | ok p =>
    obtain ⟨reps, changed⟩ := p
    rw [hc] at h
    simp only [Except.ok.injEq, Prod.mk.injEq] at h
    obtain ⟨hs, hch⟩ := h
    subst hch
    obtain ⟨h1, h2⟩ := collectReplacements_false_clean (lookupFields spec) spec [] false reps hc
      (by intro p hp; exact absurd hp (by simp))
    rw [← hs]
    exact commit_clean spec reps h1 h2

theorem resolveEmbedsGo_ok_noEmbeds :
    ∀ fuel spec spec', resolveEmbedsGo fuel spec = .ok spec' → noEmbeds spec' = true := by
  intro fuel
  induction fuel with
  | zero => intro spec spec' h; exact absurd h (by simp [resolveEmbedsGo])
  | succ n ih =>
    intro spec spec' h
    simp only [resolveEmbedsGo] at h
    cases ho : spec_resolve_embeds_one_level spec with
    | error e => rw [ho] at h; exact absurd h (by simp)
    | ok p =>
      obtain ⟨spec₁, changed⟩ := p
      rw [ho] at h
      cases changed with
      | true => exact ih spec₁ spec' (by simpa using h)
      | false =>
        simp only [if_false, Bool.false_eq_true, Except.ok.injEq] at h
        subst h
        exact one_level_false_noEmbeds spec spec₁ ho

end Humblegen

namespace Humblegen

/-- C1: for every Spec, `resolve_embeds` terminates: either it reaches a
fixed point, returning a spec in which no struct's field list contains an
embed marker, or it aborts with an error; and the spec of two structs
mutually embedding each other aborts with the `maximum embed depth` error
rather than looping forever. -/
theorem resolve_embeds_terminates_or_depth_error :
    (∀ spec : Spec,
       (∃ spec', resolve_embeds spec = .ok spec' ∧ noEmbeds spec' = true) ∨
       (∃ e, resolve_embeds spec = .error e)) ∧
    resolve_embeds mutualEmbedSpec = .error (.maxDepth MAX_EMBED_DEPTH) := by
  constructor
  · intro spec
    cases h : resolve_embeds spec with
    | ok spec' =>
      exact Or.inl ⟨spec', rfl, resolveEmbedsGo_ok_noEmbeds (MAX_EMBED_DEPTH + 1) spec spec' h⟩
    | error e => exact Or.inr ⟨e, rfl⟩
  · rfl

/-- C2: embed substitution preserves field order: each pass replaces each
embed marker, in place, with the named struct's snapshot field list and
copies every non-embed field through unchanged (the candidate list is the
order-preserving flattening); and `Monster{id, ..MonsterData}` with
`MonsterData{name, hp}` resolves to `Monster{id, name, hp}` in exactly that
order. -/
theorem embed_substitution_preserves_field_order :
    (∀ (lookup : String → Option (List FieldNode)) (fs : List FieldNode) (r : List FieldNode)
       (c : Bool), expandFields lookup fs = .ok (r, c) →
         r = (fs.map fun f =>
               if f.pair.is_embed then (lookup f.pair.name).getD [] else [f]).flatten) ∧
    resolve_embeds monsterSpec = .ok monsterSpecResolved := by
  exact ⟨fun lookup fs r c h => expandFields_ok_flatten lookup fs r c h, rfl⟩

end Humblegen

namespace Humblegen

theorem structNames_cons_struct (d : StructDef) (rest : Spec) :
    structNames (SpecItem.structDef d :: rest) = d.name :: structNames rest := by
  simp [structNames, structsFieldNodes]

theorem structNames_cons_enum (d : EnumDef) (rest : Spec) :
    structNames (SpecItem.enumDef d :: rest) = structNames rest := by
  simp [structNames, structsFieldNodes]

theorem structNames_cons_service (n : String) (rest : Spec) :
    structNames (SpecItem.serviceDef n :: rest) = structNames rest := by
  simp [structNames, structsFieldNodes]

theorem collectReplacements_eq_cands (lookup : String → Option (List FieldNode)) :
    ∀ items reps₀ c₀,
      collectReplacements lookup items reps₀ c₀ =
        match collectCands lookup items with
        | .error e => .error e
        | .ok (cs, c) => .ok (foldInsert reps₀ cs, c₀ || c) := by
  intro items
  induction items with
  | nil => intro reps₀ c₀; simp [collectReplacements, collectCands, foldInsert]
  | cons item rest ih =>
    intro reps₀ c₀
    cases item with
    | structDef d =>
      cases he : expandFields lookup d.fields with
      | error e => simp [collectReplacements, collectCands, he]
      | ok p =>
        obtain ⟨nf, c⟩ := p
        cases hc : collectCands lookup rest with
        | error e => simp [collectReplacements, collectCands, he, hc, ih]
        | ok q =>
          obtain ⟨cs, c'⟩ := q
          simp [collectReplacements, collectCands, he, hc, ih, foldInsert, Bool.or_assoc]
    | enumDef d => exact ih reps₀ c₀
    | serviceDef n => exact ih reps₀ c₀

theorem insertExtend_fresh (k : String) (v : List FieldNode) :
    ∀ reps, k ∉ reps.map Prod.fst → insertExtend k v reps = reps ++ [(k, v)] := by
  intro reps
  induction reps with
  | nil => intro _; simp [insertExtend]
  | cons q rest ih =>
    intro hk
    obtain ⟨k', v'⟩ := q
    simp only [List.map_cons, List.mem_cons] at hk
    push_neg at hk
    have hne : ¬ (k' = k) := fun h => hk.1 h.symm
    simp only [insertExtend, if_neg hne]
    rw [ih hk.2]
    simp

theorem foldInsert_fresh :
    ∀ cs reps₀, (cs.map Prod.fst).Nodup →
      (∀ k ∈ cs.map Prod.fst, k ∉ reps₀.map Prod.fst) →
      foldInsert reps₀ cs = reps₀ ++ cs := by
  intro cs
  induction cs with
  | nil => intro reps₀ _ _; simp [foldInsert]
  | cons q rest ih =>
    intro reps₀ hnd hdisj
    obtain ⟨k, v⟩ := q
    simp only [foldInsert, List.foldl_cons]
    have hk : k ∉ reps₀.map Prod.fst := hdisj k (by simp)
    rw [show (List.foldl (fun r p => insertExtend p.1 p.2 r) (insertExtend k v reps₀) rest) =
          foldInsert (insertExtend k v reps₀) rest from rfl]
    rw [insertExtend_fresh k v reps₀ hk]
    simp only [List.map_cons, List.nodup_cons] at hnd
    rw [ih (reps₀ ++ [(k, v)]) hnd.2 ?_]
    · simp
    · intro k' hk'
      simp only [List.map_append, List.mem_append, List.map_cons, List.map_nil]
      push_neg
      refine ⟨fun h => hdisj k' (by simp [hk']) h, ?_⟩
      simp only [List.mem_singleton]
      intro h
      exact hnd.1 (h ▸ hk')

theorem collectCands_keys (lookup : String → Option (List FieldNode)) :
    ∀ items cs c, collectCands lookup items = .ok (cs, c) →
      cs.map Prod.fst = structNames items := by
  intro items
  induction items with
  | nil =>
    intro cs c h
    simp only [collectCands, Except.ok.injEq, Prod.mk.injEq] at h
    simp [← h.1, structNames, structsFieldNodes]
  | cons item rest ih =>
    intro cs c h
    cases item with
    | structDef d =>
      simp only [collectCands] at h
      cases he : expandFields lookup d.fields with
      | error e => rw [he] at h; exact absurd h (by simp)
      | ok p =>
        obtain ⟨nf, c1⟩ := p
        rw [he] at h
        cases hc : collectCands lookup rest with
        | error e => rw [hc] at h; exact absurd h (by simp)
        | ok q =>
          obtain ⟨cs', c2⟩ := q
          rw [hc] at h
          simp only [Except.ok.injEq, Prod.mk.injEq] at h
          rw [← h.1, structNames_cons_struct]
          simp [ih cs' c2 hc]
    | enumDef d =>
      rw [structNames_cons_enum]
      exact ih cs c (by simpa [collectCands] using h)
    | serviceDef n =>
      rw [structNames_cons_service]
      exact ih cs c (by simpa [collectCands] using h)

theorem removeEntry_append_fresh (k : String) (v : List FieldNode) :
    ∀ reps₀ tail, k ∉ reps₀.map Prod.fst →
      removeEntry k (reps₀ ++ (k, v) :: tail) = (some v, reps₀ ++ tail) := by
  intro reps₀
  induction reps₀ with
  | nil => intro tail _; simp [removeEntry]
  | cons q rest ih =>
    intro tail hk
    obtain ⟨k', v'⟩ := q
    simp only [List.map_cons, List.mem_cons] at hk
    push_neg at hk
    have hne : ¬ (k' = k) := fun h => hk.1 h.symm
    simp only [List.cons_append, removeEntry, if_neg hne, List.append_eq]
    rw [ih tail hk.2]

end Humblegen

namespace Humblegen

theorem collectCands_error_iff (lookup : String → Option (List FieldNode)) :
    ∀ items e, collectCands lookup items = .error e ↔
      mapStructsSnapshot lookup items = .error e := by
  intro items
  induction items with
  | nil => intro e; simp [collectCands, mapStructsSnapshot]
  | cons item rest ih =>
    intro e
    cases item with
    | structDef d =>
      cases he : expandFields lookup d.fields with
      | error e' =>
        simp [collectCands, mapStructsSnapshot, he]
      | ok p =>
        obtain ⟨nf, c⟩ := p
        cases hc : collectCands lookup rest with
        | error e' =>
          have hm := (ih e').mp hc
          simp [collectCands, mapStructsSnapshot, he, hc, hm]
        | ok q =>
          obtain ⟨cs, c'⟩ := q
          cases hm : mapStructsSnapshot lookup rest with
          | error e2 =>
            have := (ih e2).mpr hm
            rw [this] at hc
            cases hc
          | ok r =>
            obtain ⟨rest', c''⟩ := r
            simp [collectCands, mapStructsSnapshot, he, hc, hm]
    | enumDef d =>
      cases hc : collectCands lookup rest with
      | error e' =>
        have hm := (ih e').mp hc
        simp [collectCands, mapStructsSnapshot, hc, hm]
      | ok q =>
        obtain ⟨cs, c'⟩ := q
        cases hm : mapStructsSnapshot lookup rest with
        | error e2 =>
          have := (ih e2).mpr hm
          rw [this] at hc
          cases hc
        | ok r =>
          obtain ⟨rest', c''⟩ := r
          simp [collectCands, mapStructsSnapshot, hc, hm]
    | serviceDef n =>
      cases hc : collectCands lookup rest with
      | error e' =>
        have hm := (ih e').mp hc
        simp [collectCands, mapStructsSnapshot, hc, hm]
      | ok q =>
        obtain ⟨cs, c'⟩ := q
        cases hm : mapStructsSnapshot lookup rest with
        | error e2 =>
          have := (ih e2).mpr hm
          rw [this] at hc
          cases hc
        | ok r =>
          obtain ⟨rest', c''⟩ := r
          simp [collectCands, mapStructsSnapshot, hc, hm]

end Humblegen

namespace Humblegen

theorem cands_mapStructs_commit (lookup : String → Option (List FieldNode)) :
    ∀ items cs c, collectCands lookup items = .ok (cs, c) →
      (structNames items).Nodup →
      ∀ reps₀, (∀ k ∈ reps₀.map Prod.fst, k ∉ structNames items) →
      ∃ items', mapStructsSnapshot lookup items = .ok (items', c) ∧
        commitReplacements (reps₀ ++ cs) items = items' := by
  intro items
  induction items with
  | nil =>
    intro cs c h _ reps₀ _
    simp only [collectCands, Except.ok.injEq, Prod.mk.injEq] at h
    exact ⟨[], by simp [mapStructsSnapshot, h.2], by simp [commitReplacements]⟩
  | cons item rest ih =>
    intro cs c h hnd reps₀ hdisj
    cases item with
    | structDef d =>
      simp only [collectCands] at h
      cases he : expandFields lookup d.fields with
      | error e => rw [he] at h; exact absurd h (by simp)
      | ok p =>
        obtain ⟨nf, c1⟩ := p
        rw [he] at h
        cases hc : collectCands lookup rest with
        | error e => rw [hc] at h; exact absurd h (by simp)
        | ok q =>
          obtain ⟨cs', c2⟩ := q
          rw [hc] at h
          simp only [Except.ok.injEq, Prod.mk.injEq] at h
          obtain ⟨hcs, hcc⟩ := h
          rw [structNames_cons_struct] at hnd hdisj
          have hnd' := (List.nodup_cons.mp hnd).2
          have hdname : d.name ∉ structNames rest := (List.nodup_cons.mp hnd).1
          have hdisj' : ∀ k ∈ reps₀.map Prod.fst, k ∉ structNames rest :=
            fun k hk hmem => hdisj k hk (List.mem_cons_of_mem _ hmem)
          obtain ⟨rest', hm, hcommit⟩ := ih cs' c2 hc hnd' reps₀ hdisj'
          refine ⟨.structDef { d with fields := nf } :: rest', ?_, ?_⟩
          · simp [mapStructsSnapshot, he, hm, ← hcc]
          · rw [← hcs]
            simp only [commitReplacements]
            have hre : removeEntry d.name (reps₀ ++ (d.name, nf) :: cs') =
                (some nf, reps₀ ++ cs') := by
              apply removeEntry_append_fresh
              intro hmem
              exact hdisj d.name hmem (List.mem_cons_self _ _)
            rw [hre]
            exact congrArg (fun l => SpecItem.structDef { d with fields := nf } :: l) hcommit
    | enumDef d =>
      rw [structNames_cons_enum] at hnd hdisj
      obtain ⟨rest', hm, hcommit⟩ :=
        ih cs c (by simpa [collectCands] using h) hnd reps₀ hdisj
      refine ⟨.enumDef d :: rest', ?_, ?_⟩
      · simp [mapStructsSnapshot, hm]
      · simp only [commitReplacements]
        rw [hcommit]
    | serviceDef n =>
      rw [structNames_cons_service] at hnd hdisj
      obtain ⟨rest', hm, hcommit⟩ :=
        ih cs c (by simpa [collectCands] using h) hnd reps₀ hdisj
      refine ⟨.serviceDef n :: rest', ?_, ?_⟩
      · simp [mapStructsSnapshot, hm]
      · simp only [commitReplacements]
        rw [hcommit]

theorem one_level_eq_spec_of_nodup (spec : Spec) (hnd : (structNames spec).Nodup) :
    spec_resolve_embeds_one_level spec = specResolveOneLevelSpec spec := by
  unfold spec_resolve_embeds_one_level specResolveOneLevelSpec
  rw [collectReplacements_eq_cands (lookupFields spec) spec [] false]
  cases hc : collectCands (lookupFields spec) spec with
  | error e =>
    rw [(collectCands_error_iff (lookupFields spec) spec e).mp hc]
  | ok p =>
    obtain ⟨cs, c⟩ := p
    have hkeys := collectCands_keys (lookupFields spec) spec cs c hc
    have hfold : foldInsert [] cs = cs := by
      rw [foldInsert_fresh cs [] (hkeys ▸ hnd) (by simp)]
      simp
    obtain ⟨items', hm, hcommit⟩ :=
      cands_mapStructs_commit (lookupFields spec) spec cs c hc hnd [] (by simp)
    rw [hm]
    simp only [hfold, Bool.false_or]
    rw [show ([] : List (String × List FieldNode)) ++ cs = cs from rfl] at hcommit
    rw [hcommit]

end Humblegen

namespace Humblegen

theorem mapStructsSnapshot_of_noEmbeds (lookup : String → Option (List FieldNode)) :
    ∀ spec, noEmbeds spec = true → mapStructsSnapshot lookup spec = .ok (spec, false) := by
  intro spec
  induction spec with
  | nil => intro _; simp [mapStructsSnapshot]
  | cons item rest ih =>
    intro h
    simp only [noEmbeds, List.all_cons, Bool.and_eq_true] at h
    have hrest : noEmbeds rest = true := h.2
    cases item with
    | structDef d =>
      have hd : ∀ f ∈ d.fields, f.pair.is_embed = false := by
        have := h.1
        simp only [StructDef.hasEmbed, Bool.not_eq_true'] at this
        rw [List.any_eq_false] at this
        intro f hf
        simpa using this f hf
      simp only [mapStructsSnapshot, expandFields_of_noEmbeds lookup d.fields hd, ih hrest]
      rfl
    | enumDef d => simp [mapStructsSnapshot, ih hrest]
    | serviceDef n => simp [mapStructsSnapshot, ih hrest]

theorem one_level_of_resolved (spec : Spec) (hnd : (structNames spec).Nodup)
    (hne : noEmbeds spec = true) :
    spec_resolve_embeds_one_level spec = .ok (spec, false) := by
  rw [one_level_eq_spec_of_nodup spec hnd]
  unfold specResolveOneLevelSpec
  exact mapStructsSnapshot_of_noEmbeds (lookupFields spec) spec hne

/-- C5 counterexample: the claim fails as stated on a Spec with two structs
sharing a name: `dupNameSpec` contains no embed marker, yet `resolve_embeds`
returns it with the first struct's field list changed (it absorbs the
sibling's queued candidate list), so re-resolution does not leave every
struct's field list equal to what it was before. -/
theorem resolve_embeds_changes_duplicate_name_spec :
    noEmbeds dupNameSpec = true ∧
      resolve_embeds dupNameSpec = .ok dupNameSpecResult ∧
      dupNameSpecResult ≠ dupNameSpec := by
  refine ⟨rfl, rfl, fun h => ?_⟩
  exact absurd (congrArg firstStructFieldCount h) (by decide)

/-- C5 amended: embed resolution is idempotent on well-formed specs: for a
Spec whose struct names are pairwise distinct (the data model's
name-is-identity invariant) and that contains no embed markers, one pass
reports `changed = false` (zero substitutions) and `resolve_embeds` returns
the spec with every struct's field list unchanged. -/
theorem resolve_embeds_idempotent (spec : Spec) (hnd : (structNames spec).Nodup)
    (hne : noEmbeds spec = true) :
    spec_resolve_embeds_one_level spec = .ok (spec, false) ∧
      resolve_embeds spec = .ok spec := by
  have h1 := one_level_of_resolved spec hnd hne
  refine ⟨h1, ?_⟩
  unfold resolve_embeds
  simp only [resolveEmbedsGo, h1]
  rfl

theorem collect_error_of_bad (lookup : String → Option (List FieldNode)) :
    ∀ items, (∃ d, SpecItem.structDef d ∈ items ∧
        ∃ f ∈ d.fields, f.pair.is_embed = true ∧ lookup f.pair.name = none) →
      ∀ reps₀ c₀, ∃ n, collectReplacements lookup items reps₀ c₀ = .error (.unknownType n) := by
  intro items
  induction items with
  | nil =>
    intro h
    obtain ⟨d, hd, _⟩ := h
    exact absurd hd (by simp)
  | cons item rest ih =>
    intro h reps₀ c₀
    obtain ⟨d, hd, hbad⟩ := h
    cases item with
    | structDef d' =>
      cases he : expandFields lookup d'.fields with
      | error e =>
        obtain ⟨n, hn, _⟩ := expandFields_error_unknown lookup d'.fields e he
        exact ⟨n, by simp [collectReplacements, he, hn]⟩
      | ok p =>
        obtain ⟨nf, c⟩ := p
        rcases List.mem_cons.mp hd with hdd | hdd
        · cases hdd
          obtain ⟨f, hf, hfe, hfl⟩ := hbad
          have := expandFields_ok_lookup_isSome lookup d.fields nf c he f hf hfe
          rw [hfl] at this
          exact absurd this (by simp)
        · obtain ⟨n, hn⟩ := ih ⟨d, hdd, hbad⟩ (insertExtend d'.name nf reps₀) (c₀ || c)
          exact ⟨n, by simp [collectReplacements, he, hn]⟩
    | enumDef d' =>
      rcases List.mem_cons.mp hd with hdd | hdd
      · exact absurd hdd (by simp)
      · obtain ⟨n, hn⟩ := ih ⟨d, hdd, hbad⟩ reps₀ c₀
        exact ⟨n, by simp [collectReplacements, hn]⟩
    | serviceDef m =>
      rcases List.mem_cons.mp hd with hdd | hdd
      · exact absurd hdd (by simp)
      · obtain ⟨n, hn⟩ := ih ⟨d, hdd, hbad⟩ reps₀ c₀
        exact ⟨n, by simp [collectReplacements, hn]⟩

/-- C4: for every Spec containing a struct with an embed marker whose name
matches no struct, resolution fails with the `unknown type referenced by
embed` error, and the error is raised already by the collection phase
(`collectReplacements`), before any commit; the same error is the result of
the whole pass and of `resolve_embeds`. -/
theorem unknown_embed_error_in_collection (spec : Spec) (h : hasUnknownEmbed spec = true) :
    ∃ n, collectReplacements (lookupFields spec) spec [] false = .error (.unknownType n) ∧
      spec_resolve_embeds_one_level spec = .error (.unknownType n) ∧
      resolve_embeds spec = .error (.unknownType n) := by
  have hex : ∃ d, SpecItem.structDef d ∈ spec ∧
      ∃ f ∈ d.fields, f.pair.is_embed = true ∧ lookupFields spec f.pair.name = none := by
    simp only [hasUnknownEmbed, List.any_eq_true] at h
    obtain ⟨item, hitem, hb⟩ := h
    cases item with
    | structDef d =>
      simp only [List.any_eq_true, Bool.and_eq_true] at hb
      obtain ⟨f, hf, hfe, hfl⟩ := hb
      exact ⟨d, hitem, f, hf, hfe, by simpa using hfl⟩
    | enumDef d => simp at hb
    | serviceDef n => simp at hb
  obtain ⟨n, hn⟩ := collect_error_of_bad (lookupFields spec) spec hex [] false
  refine ⟨n, hn, ?_, ?_⟩
  · unfold spec_resolve_embeds_one_level
    rw [hn]
  · unfold resolve_embeds
    simp only [resolveEmbedsGo]
    unfold spec_resolve_embeds_one_level
    rw [hn]

end Humblegen

namespace Humblegen

/-- C10: the Elm type renderer emits `Result` followed first by the err
component and then the ok component (swapped relative to the grammar's
`(ok, err)` order), each wrapped in parentheses exactly when its rendering
contains a space, as in the concrete example. -/
theorem result_type_ident_swaps_ok_err :
    (∀ ok err, generate_type_ident (.result ok err) =
        "Result " ++ to_atom (generate_type_ident err) ++ " "
          ++ to_atom (generate_type_ident ok)) ∧
    (∀ s, to_atom s = if containsSpace s then "(" ++ s ++ ")" else s) ∧
    generate_type_ident (.result (.builtIn .str) (.list (.builtIn .i32)))
      = "Result (List Int) String" := by
  refine ⟨fun ok err => ?_, fun s => rfl, rfl⟩
  rfl

theorem helpers_filterMap (spec : Spec) :
    (spec.filterMap fun item =>
      match item with
      | .enumDef edef => some (generate_enum_helpers edef)
      | _ => none) = (enumItems spec).map generate_enum_helpers := by
  induction spec with
  | nil => simp [enumItems]
  | cons item rest ih =>
    cases item with
    | structDef d => simpa [enumItems] using ih
    | enumDef d => simpa [enumItems] using ih
    | serviceDef n => simpa [enumItems] using ih

/-- C6 counterexample: for a spec holding one enum with no Simple variant at
all, `generate_rest_api_client_helpers` still emits a string-lookup helper
(consisting of just the catch-all branch), so its output is not empty — the
claim that no helper is generated for such an enum is false. -/
theorem client_helpers_emitted_without_simple_variants :
    generate_rest_api_client_helpers [.enumDef payloadOnlyEnum] =
      "parseEnumPayloadFromString : String -> Maybe Payload\nparseEnumPayloadFromString s = case s of \n\n  _ -> Nothing\n" ∧
    generate_rest_api_client_helpers [.enumDef payloadOnlyEnum] ≠ "" := by
  exact ⟨rfl, by decide⟩

/-- C6 amended: client-artifact helper generation emits exactly one
string-lookup helper per enum item — including enums with no Simple variants,
whose helper consists of only the catch-all no-match branch; each helper has
one branch per Simple variant mapping that variant's name string to the
variant, plus a final catch-all, as the pinned `Color` helper shows. -/
theorem client_helpers_one_per_enum :
    (∀ spec : Spec, generate_rest_api_client_helpers spec =
        joinSep "" ((enumItems spec).map generate_enum_helpers)) ∧
    generate_enum_helpers colorEnum =
      "parseEnumColorFromString : String -> Maybe Color\nparseEnumColorFromString s = case s of \n  \"Red\" -> Just Red\n\n  \"Blue\" -> Just Blue\n  _ -> Nothing\n" := by
  refine ⟨fun spec => ?_, rfl⟩
  unfold generate_rest_api_client_helpers
  rw [helpers_filterMap]

/-- C9: `generate` validates the output path first: a missing/non-directory
path yields `OutputMustBeFolder`, a non-empty directory yields
`OutputFolderNotEmpty`, and on any error the filesystem state is returned
untouched — no output file is created. -/
theorem generate_validates_output_dir_first (spec : Spec) (fs : FileSys) :
    (fs.isDir = false →
      generate spec fs = (.error (.outputMustBeFolder BACKEND_NAME), fs)) ∧
    (fs.isDir = true → fs.entries ≠ [] →
      generate spec fs = (.error (.outputFolderNotEmpty BACKEND_NAME), fs)) ∧
    (∀ e, (generate spec fs).1 = .error e → (generate spec fs).2 = fs) := by
  refine ⟨fun hdir => ?_, fun hdir hne => ?_, fun e he => ?_⟩
  · simp [generate, validate_output_dir, hdir]
  · simp [generate, validate_output_dir, hdir, List.isEmpty_iff, hne]
  · unfold generate at he ⊢
    cases hv : validate_output_dir fs with
    | error e' => simp [hv]
    | ok u =>
      rw [hv] at he
      simp [generate_user_defined_types] at he
end Humblegen

namespace Humblegen

theorem containsUnsupportedList_iff :
    ∀ ts, containsUnsupportedList ts = true ↔ ∃ t ∈ ts, containsUnsupported t = true := by
  intro ts
  induction ts with
  | nil => simp [containsUnsupportedList]
  | cons t ts ih =>
    simp [containsUnsupportedList, Bool.or_eq_true, ih]

theorem pipeline_ok_all :
    ∀ ts i l, generate_components_by_index_pipeline ts i = .ok l →
      ∀ t ∈ ts, ∃ s, generate_type_decoder t = .ok s := by
  intro ts
  induction ts with
  | nil => intro i l _ t ht; exact absurd ht (by simp)
  | cons t ts ih =>
    intro i l h t' ht'
    simp only [generate_components_by_index_pipeline] at h
    cases hd : generate_type_decoder t with
    | error e => rw [hd] at h; exact absurd h (by simp)
    | ok s =>
      rw [hd] at h
      cases hp : generate_components_by_index_pipeline ts (i + 1) with
      | error e => rw [hp] at h; exact absurd h (by simp)
      | ok rest =>
        rcases List.mem_cons.mp ht' with rfl | ht'
        · exact ⟨s, hd⟩
        · exact ih (i + 1) rest hp t' ht'

theorem encodeComponents_ok_all :
    ∀ ts i l, encodeComponentsFrom ts i = .ok l →
      ∀ t ∈ ts, ∃ s, generate_type_encoder t = .ok s := by
  intro ts
  induction ts with
  | nil => intro i l _ t ht; exact absurd ht (by simp)
  | cons t ts ih =>
    intro i l h t' ht'
    simp only [encodeComponentsFrom] at h
    cases hd : generate_type_encoder t with
    | error e => rw [hd] at h; exact absurd h (by simp)
    | ok s =>
      rw [hd] at h
      cases hp : encodeComponentsFrom ts (i + 1) with
      | error e => rw [hp] at h; exact absurd h (by simp)
      | ok rest =>
        rcases List.mem_cons.mp ht' with rfl | ht'
        · exact ⟨s, hd⟩
        · exact ih (i + 1) rest hp t' ht'

theorem unsupported_decoder_error :
    ∀ ty, containsUnsupported ty = true → ∃ e, generate_type_decoder ty = .error e := by
  intro ty
  induction ty using TypeIdent.inductionOn with
  | hb a =>
    intro h
    simp only [containsUnsupported, Bool.or_eq_true, decide_eq_true_eq] at h
    rcases h with rfl | rfl
    · exact ⟨.notImplemented, rfl⟩
    · exact ⟨.notImplemented, rfl⟩
  | hl t iht =>
    intro h
    simp only [containsUnsupported] at h
    obtain ⟨e, he⟩ := iht h
    exact ⟨e, by simp [generate_type_decoder, he]⟩
  | ho t iht =>
    intro h
    simp only [containsUnsupported] at h
    obtain ⟨e, he⟩ := iht h
    exact ⟨e, by simp [generate_type_decoder, he]⟩
  | hr a b iha ihb => intro _; exact ⟨.notImplemented, by simp [generate_type_decoder]⟩
  | hm k v ihk ihv =>
    intro h
    simp only [containsUnsupported, Bool.or_eq_true] at h
    cases hk : generate_type_decoder k with
    | error e => exact ⟨e, by simp [generate_type_decoder, hk]⟩
    | ok ks =>
      have hkv : containsUnsupported v = true := by
        rcases h with h | h
        · obtain ⟨e, he⟩ := ihk h
          rw [hk] at he
          exact absurd he (by simp)
        · exact h
      obtain ⟨e, he⟩ := ihv hkv
      by_cases hks : ks = "D.string"
      · exact ⟨e, by simp [generate_type_decoder, hk, hks, he]⟩
      · exact ⟨.assertionFailed "elm only supports dict keys",
          by simp [generate_type_decoder, hk, hks]⟩
  | ht ts ihts =>
    intro h
    simp only [containsUnsupported] at h
    obtain ⟨t, ht', hct⟩ := (containsUnsupportedList_iff ts).mp h
    obtain ⟨e, he⟩ := ihts t ht' hct
    cases hp : generate_components_by_index_pipeline ts 0 with
    | error e' => exact ⟨e', by simp [generate_type_decoder, hp]⟩
    | ok l =>
      obtain ⟨s, hs⟩ := pipeline_ok_all ts 0 l hp t ht'
      rw [hs] at he
      exact absurd he (by simp)
  | hu s => intro h; exact absurd h (by simp [containsUnsupported])

theorem unsupported_encoder_error :
    ∀ ty, containsUnsupported ty = true → ∃ e, generate_type_encoder ty = .error e := by
  intro ty
  induction ty using TypeIdent.inductionOn with
  | hb a =>
    intro h
    simp only [containsUnsupported, Bool.or_eq_true, decide_eq_true_eq] at h
    rcases h with rfl | rfl
    · exact ⟨.notImplemented, rfl⟩
    · exact ⟨.notImplemented, rfl⟩
  | hl t iht =>
    intro h
    simp only [containsUnsupported] at h
    obtain ⟨e, he⟩ := iht h
    exact ⟨e, by simp [generate_type_encoder, he]⟩
  | ho t iht =>
    intro h
    simp only [containsUnsupported] at h
    obtain ⟨e, he⟩ := iht h
    exact ⟨e, by simp [generate_type_encoder, he]⟩
  | hr a b iha ihb => intro _; exact ⟨.notImplemented, by simp [generate_type_encoder]⟩
  | hm k v ihk ihv =>
    intro h
    simp only [containsUnsupported, Bool.or_eq_true] at h
    cases hk : generate_type_encoder k with
    | error e => exact ⟨e, by simp [generate_type_encoder, hk]⟩
    | ok ks =>
      have hkv : containsUnsupported v = true := by
        rcases h with h | h
        · obtain ⟨e, he⟩ := ihk h
          rw [hk] at he
          exact absurd he (by simp)
        · exact h
      obtain ⟨e, he⟩ := ihv hkv
      by_cases hks : ks = "E.string"
      · exact ⟨e, by simp [generate_type_encoder, hk, hks, he]⟩
      · exact ⟨.assertionFailed "can only encode string keys in maps",
          by simp [generate_type_encoder, hk, hks]⟩
  | ht ts ihts =>
    intro h
    simp only [containsUnsupported] at h
    obtain ⟨t, ht', hct⟩ := (containsUnsupportedList_iff ts).mp h
    obtain ⟨e, he⟩ := ihts t ht' hct
    cases hp : encodeComponentsFrom ts 0 with
    | error e' => exact ⟨e', by simp [generate_type_encoder, hp]⟩
    | ok l =>
      obtain ⟨s, hs⟩ := encodeComponents_ok_all ts 0 l hp t ht'
      rw [hs] at he
      exact absurd he (by simp)
  | hu s => intro h; exact absurd h (by simp [containsUnsupported])

end Humblegen

namespace Humblegen

theorem append_ne_of_take_clash (p t q : String) (n : Nat)
    (hn : n ≤ p.data.length) (hcl : p.data.take n ≠ q.data.take n) : p ++ t ≠ q := by
  intro he
  apply hcl
  have hd : p.data ++ t.data = q.data := by
    rw [← String.data_append]
    exact congrArg String.data he
  rw [← hd, List.take_append_of_le_length hn]

theorem lowerChar_ne_upper (c u : Char)
    (hkey : (letterPairs.find? fun p => p.1 = u).isSome)
    (hval : u ∉ letterPairs.map Prod.snd) : lowerChar c ≠ u := by
  intro h
  unfold lowerChar at h
  cases hf : letterPairs.find? fun p => p.1 = c with
  | none =>
    rw [hf] at h
    simp only [Option.map_none', Option.getD_none] at h
    subst h
    rw [hf] at hkey
    exact absurd hkey (by simp)
  | some p =>
    rw [hf] at h
    simp only [Option.map_some', Option.getD_some] at h
    have hmem := List.mem_of_find?_eq_some hf
    have hsnd : p.2 ∈ letterPairs.map Prod.snd := List.mem_map_of_mem Prod.snd hmem
    rw [h] at hsnd
    exact absurd hsnd hval

theorem lowerChar_ne_D (c : Char) : lowerChar c ≠ 'D' :=
  lowerChar_ne_upper c 'D' (by decide) (by decide)

theorem lowerChar_ne_E (c : Char) : lowerChar c ≠ 'E' :=
  lowerChar_ne_upper c 'E' (by decide) (by decide)

theorem to_camel_case_head (s : String) (c : Char) (hne : ∀ x, lowerChar x ≠ c)
    (h : (to_camel_case s).data.head? = some c) : False := by
  unfold to_camel_case at h
  cases hcc : camelChars false s.data with
  | nil => rw [hcc] at h; exact absurd h (by simp)
  | cons x xs =>
    rw [hcc] at h
    simp only [List.head?_cons, Option.some.injEq] at h
    exact hne x h

theorem to_camel_case_ne_Dstring (s : String) : to_camel_case s ≠ "D.string" := by
  intro he
  apply to_camel_case_head s 'D' lowerChar_ne_D
  rw [he]
  rfl

theorem to_camel_case_ne_Estring (s : String) : to_camel_case s ≠ "E.string" := by
  intro he
  apply to_camel_case_head s 'E' lowerChar_ne_E
  rw [he]
  rfl

end Humblegen

namespace Humblegen

theorem decoder_ok_Dstring :
    ∀ (k : TypeIdent) (s : String), generate_type_decoder k = .ok s → s = "D.string" →
      k = .builtIn .str := by
  intro k s h hs
  subst hs
  cases k with
  | builtIn a =>
    cases a <;> first | rfl | simp [generate_type_decoder, generate_atom_decoder] at h
  | list inner =>
    simp only [generate_type_decoder] at h
    cases hi : generate_type_decoder inner with
    | error e => rw [hi] at h; simp at h
    | ok u =>
      rw [hi] at h
      simp only [Except.ok.injEq] at h
      exact absurd h (append_ne_of_take_clash "D.list " (to_atom u) "D.string" 3
        (by decide) (by decide))
  | option inner =>
    simp only [generate_type_decoder] at h
    cases hi : generate_type_decoder inner with
    | error e => rw [hi] at h; simp at h
    | ok u =>
      rw [hi] at h
      simp only [Except.ok.injEq] at h
      exact absurd h (append_ne_of_take_clash "D.maybe " (to_atom u) "D.string" 3
        (by decide) (by decide))
  | result a b => simp [generate_type_decoder] at h
  | map key value =>
    simp only [generate_type_decoder] at h
    cases hk : generate_type_decoder key with
    | error e => rw [hk] at h; simp at h
    | ok ks =>
      rw [hk] at h
      dsimp only at h
      by_cases hks : ks = "D.string"
      · rw [if_pos hks] at h
        cases hv : generate_type_decoder value with
        | error e => rw [hv] at h; simp at h
        | ok vs =>
          rw [hv] at h
          simp only [Except.ok.injEq] at h
          exact absurd h (append_ne_of_take_clash "D.dict " (to_atom vs) "D.string" 3
            (by decide) (by decide))
      · rw [if_neg hks] at h
        simp at h
  | tuple ts =>
    simp only [generate_type_decoder] at h
    cases hp : generate_components_by_index_pipeline ts 0 with
    | error e => rw [hp] at h; simp at h
    | ok l =>
      rw [hp] at h
      simp only [Except.ok.injEq, String.append_assoc] at h
      exact absurd h (append_ne_of_take_clash "D.succeed (\\"
        (joinSep " " (xParts ts.length) ++ (" -> (" ++ (joinSep ", " (xParts ts.length)
          ++ (")) " ++ joinSep " " l)))) "D.string" 4 (by decide) (by decide))
  | userDefined ident =>
    simp only [generate_type_decoder, Except.ok.injEq] at h
    exact absurd h (to_camel_case_ne_Dstring (ident ++ "Decoder"))

theorem encoder_ok_Estring :
    ∀ (k : TypeIdent) (s : String), generate_type_encoder k = .ok s → s = "E.string" →
      k = .builtIn .str := by
  intro k s h hs
  subst hs
  cases k with
  | builtIn a =>
    cases a <;> first | rfl | simp [generate_type_encoder, generate_atom_encoder] at h
  | list inner =>
    simp only [generate_type_encoder] at h
    cases hi : generate_type_encoder inner with
    | error e => rw [hi] at h; simp at h
    | ok u =>
      rw [hi] at h
      simp only [Except.ok.injEq] at h
      exact absurd h (append_ne_of_take_clash "E.list " (to_atom u) "E.string" 3
        (by decide) (by decide))
  | option inner =>
    simp only [generate_type_encoder] at h
    cases hi : generate_type_encoder inner with
    | error e => rw [hi] at h; simp at h
    | ok u =>
      rw [hi] at h
      simp only [Except.ok.injEq] at h
      exact absurd h (append_ne_of_take_clash "encMaybe " (to_atom u) "E.string" 1
        (by decide) (by decide))
  | result a b => simp [generate_type_encoder] at h
  | map key value =>
    simp only [generate_type_encoder] at h
    cases hk : generate_type_encoder key with
    | error e => rw [hk] at h; simp at h
    | ok ks =>
      rw [hk] at h
      dsimp only at h
      by_cases hks : ks = "E.string"
      · rw [if_pos hks] at h
        cases hv : generate_type_encoder value with
        | error e => rw [hv] at h; simp at h
        | ok vs =>
          rw [hv] at h
          simp only [Except.ok.injEq] at h
          exact absurd h (append_ne_of_take_clash "E.dict identity " (to_atom vs) "E.string" 3
            (by decide) (by decide))
      · rw [if_neg hks] at h
        simp at h
  | tuple ts =>
    simp only [generate_type_encoder] at h
    cases hp : encodeComponentsFrom ts 0 with
    | error e => rw [hp] at h; simp at h
    | ok l =>
      rw [hp] at h
      simp only [Except.ok.injEq, String.append_assoc] at h
      exact absurd h (append_ne_of_take_clash "\\("
        (joinSep ", " (xParts ts.length) ++ (") -> E.list identity [ "
          ++ (joinSep ", " l ++ " ]"))) "E.string" 1 (by decide) (by decide))
  | userDefined ident =>
    simp only [generate_type_encoder, Except.ok.injEq] at h
    exact absurd h (to_camel_case_ne_Estring ("encode" ++ ident))

end Humblegen

namespace Humblegen

/-- C7: for every TypeIdent containing a Result shape or a Uuid/Bytes atom,
both decoder and encoder generation fail with an error and produce no codec
text; the Result arm and the Uuid/Bytes atom codecs themselves signal
`notImplemented` (the `todo!()` panic). -/
theorem unsupported_codec_shapes_fail_loudly :
    (∀ ty, containsUnsupported ty = true →
       (∃ e, generate_type_decoder ty = .error e) ∧
       (∃ e, generate_type_encoder ty = .error e)) ∧
    (∀ tok terr, generate_type_decoder (.result tok terr) = .error .notImplemented) ∧
    (∀ tok terr, generate_type_encoder (.result tok terr) = .error .notImplemented) ∧
    generate_atom_decoder .uuid = .error .notImplemented ∧
    generate_atom_decoder .bytes = .error .notImplemented ∧
    generate_atom_encoder .uuid = .error .notImplemented ∧
    generate_atom_encoder .bytes = .error .notImplemented := by
  refine ⟨fun ty h => ⟨unsupported_decoder_error ty h, unsupported_encoder_error ty h⟩,
    fun tok terr => rfl, fun tok terr => rfl, rfl, rfl, rfl, rfl⟩

/-- C8: for every `Map(K,V)`, codec generation fails fatally whenever `K` is
not the string atom (the rendered key codec only equals `D.string`/`E.string`
for the string atom), and for a string key it generates the string-keyed
dictionary codec over `V`. -/
theorem map_codec_requires_string_key :
    (∀ k v, k ≠ .builtIn .str →
       (∃ e, generate_type_decoder (.map k v) = .error e) ∧
       (∃ e, generate_type_encoder (.map k v) = .error e)) ∧
    (∀ v s, generate_type_decoder v = .ok s →
       generate_type_decoder (.map (.builtIn .str) v) = .ok ("D.dict " ++ to_atom s)) ∧
    (∀ v s, generate_type_encoder v = .ok s →
       generate_type_encoder (.map (.builtIn .str) v) = .ok ("E.dict identity " ++ to_atom s)) := by
  refine ⟨fun k v hk => ⟨?_, ?_⟩, fun v s hv => ?_, fun v s hv => ?_⟩
  · cases hkd : generate_type_decoder k with
    | error e => exact ⟨e, by simp [generate_type_decoder, hkd]⟩
    | ok ks =>
      have hks : ks ≠ "D.string" := fun hh => hk (decoder_ok_Dstring k ks hkd hh)
      exact ⟨.assertionFailed "elm only supports dict keys",
        by simp [generate_type_decoder, hkd, hks]⟩
  · cases hke : generate_type_encoder k with
    | error e => exact ⟨e, by simp [generate_type_encoder, hke]⟩
    | ok ks =>
      have hks : ks ≠ "E.string" := fun hh => hk (encoder_ok_Estring k ks hke hh)
      exact ⟨.assertionFailed "can only encode string keys in maps",
        by simp [generate_type_encoder, hke, hks]⟩
  · simp [generate_type_decoder, generate_atom_decoder, hv]
  · simp [generate_type_encoder, generate_atom_encoder, hv]

end Humblegen

namespace Humblegen

/-- C3: within one resolver pass, every substitution reads only the snapshot
taken at the start of the pass and every struct's fields are overwritten only
after all candidate lists are computed: for specs whose struct names are
distinct (the data model's name-is-identity invariant), the two-phase
collect/commit implementation coincides with the direct per-struct
substitution against the start-of-pass lookup, which expands exactly one
embed level per marker. -/
theorem one_pass_reads_only_snapshot (spec : Spec)
    (hnd : (structNames spec).Nodup) :
    spec_resolve_embeds_one_level spec = specResolveOneLevelSpec spec :=
  one_level_eq_spec_of_nodup spec hnd

/-- Witness for C3: the two-phase pass and the direct snapshot semantics agree
on the Monster example spec. -/
theorem one_pass_reads_only_snapshot_witness :
    spec_resolve_embeds_one_level monsterSpec = specResolveOneLevelSpec monsterSpec :=
  one_pass_reads_only_snapshot monsterSpec (by decide)

/-- Witness for C2: the flattening equation evaluated on the Monster struct
with the Monster spec's snapshot lookup. -/
theorem embed_substitution_preserves_field_order_witness :
    [plainField "id" (.builtIn .i32), plainField "name" (.builtIn .str),
     plainField "hp" (.builtIn .i32)] =
      (monsterStruct.fields.map fun f =>
        if f.pair.is_embed then ((lookupFields monsterSpec) f.pair.name).getD []
        else [f]).flatten :=
  embed_substitution_preserves_field_order.1 (lookupFields monsterSpec)
    monsterStruct.fields
    [plainField "id" (.builtIn .i32), plainField "name" (.builtIn .str),
     plainField "hp" (.builtIn .i32)] true rfl

/-- Witness for C4: the spec embedding the unknown name `Missing` fails in
collection, in the pass, and in `resolve_embeds`, with the unknown-type
error. -/
theorem unknown_embed_error_in_collection_witness :
    ∃ n, collectReplacements (lookupFields unknownEmbedSpec) unknownEmbedSpec [] false
          = .error (.unknownType n) ∧
        spec_resolve_embeds_one_level unknownEmbedSpec = .error (.unknownType n) ∧
        resolve_embeds unknownEmbedSpec = .error (.unknownType n) :=
  unknown_embed_error_in_collection unknownEmbedSpec (by decide)

/-- Witness for C5: re-resolving the already-resolved Monster spec changes
nothing and reports no substitution. -/
theorem resolve_embeds_idempotent_witness :
    spec_resolve_embeds_one_level monsterSpecResolved = .ok (monsterSpecResolved, false) ∧
      resolve_embeds monsterSpecResolved = .ok monsterSpecResolved :=
  resolve_embeds_idempotent monsterSpecResolved (by decide) (by decide)

/-- Witness for C7: the Uuid atom, as a TypeIdent, is rejected by both codec
directions. -/
theorem unsupported_codec_shapes_fail_loudly_witness :
    (∃ e, generate_type_decoder (.builtIn .uuid) = .error e) ∧
      (∃ e, generate_type_encoder (.builtIn .uuid) = .error e) :=
  unsupported_codec_shapes_fail_loudly.1 (.builtIn .uuid) rfl

/-- Witness for C8: an i32 map key is rejected in both directions, and a
string key yields the dictionary codecs. -/
theorem map_codec_requires_string_key_witness :
    ((∃ e, generate_type_decoder (.map (.builtIn .i32) (.builtIn .str)) = .error e) ∧
      (∃ e, generate_type_encoder (.map (.builtIn .i32) (.builtIn .str)) = .error e)) ∧
    generate_type_decoder (.map (.builtIn .str) (.builtIn .i32))
      = .ok ("D.dict " ++ to_atom "D.int") ∧
    generate_type_encoder (.map (.builtIn .str) (.builtIn .i32))
      = .ok ("E.dict identity " ++ to_atom "E.int") :=
  ⟨map_codec_requires_string_key.1 (.builtIn .i32) (.builtIn .str)
      (fun h => by injection h with h2; exact AtomType.noConfusion h2),
   map_codec_requires_string_key.2.1 (.builtIn .i32) "D.int" rfl,
   map_codec_requires_string_key.2.2 (.builtIn .i32) "E.int" rfl⟩

/-- Witness for C9: a missing directory and a non-empty directory both fail
with the corresponding error and an unchanged filesystem. -/
theorem generate_validates_output_dir_first_witness :
    generate [] ⟨false, []⟩ = (.error (.outputMustBeFolder BACKEND_NAME), ⟨false, []⟩) ∧
      generate [] ⟨true, ["stale.txt"]⟩
        = (.error (.outputFolderNotEmpty BACKEND_NAME), ⟨true, ["stale.txt"]⟩) :=
  ⟨(generate_validates_output_dir_first [] ⟨false, []⟩).1 rfl,
   (generate_validates_output_dir_first [] ⟨true, ["stale.txt"]⟩).2.1 rfl (by decide)⟩

end Humblegen
